import Mathlib

/-!
Verification development for the aide plan/step model
(`src/vs/workbench/contrib/aideAgent/common/aideAgentPlanModel.ts`) and the
relevance-score comparator sort in the sidecar client
(`extensions/codestory/src/sidecar/client.ts`, `getSemanticSearchResult`).

The TypeScript classes are embedded as pure Lean structures; mutating methods
become functions returning the updated value together with the list of
notification events fired during the call, and `throw` becomes `Except.error`.
Rich markdown strings (`IMarkdownString`) are modelled by their text value.
-/

/-- Modelled from the spec: the inbound update record `IAideAgentPlanStep`
(declared in `aideAgentService.ts`, which is not part of the provided sources).
Per the spec it is shaped `\x7b index: integer, description?: formatted-text, ... \x7d`;
only the two fields the plan model reads are kept, and the optional formatted
text is modelled by an optional string. -/
structure IAideAgentPlanStep where
  index : Nat
  description : Option String
  deriving Repr, DecidableEq

/-- The single local error kind: `throw new Error('Index mismatch')`. -/
inductive PlanError where
  | indexMismatch
  deriving Repr, DecidableEq

/-- State of `AideAgentPlanStepModel`: id (`'step_' + nextId++`), session id,
the fixed `_index`, the accumulated `_description`, the `_parts` list of
received update records, and the `_isComplete` flag. -/
structure AideAgentPlanStepModel where
  id : String
  sessionId : String
  index : Nat
  description : Option String
  parts : List IAideAgentPlanStep
  isComplete : Bool
  deriving Repr, DecidableEq

/-- Notification events observable from outside: a step's `onDidChange` fire
(tagged with the firing step's id), the plan's `onDidChange` fire with an
`addPlanStep` payload carrying the new step, a step's disposal notification,
and the plan's `onDidDispose` fire. -/
inductive PlanEvent where
  | stepDidChange (stepId : String)
  | addPlanStep (step : AideAgentPlanStepModel)
  | stepDisposed (stepId : String)
  | planDisposed
  deriving Repr, DecidableEq

/-- Modelled from the spec: `appendMarkdownString` (defined in
`aideAgentModel.ts`, not part of the provided sources). The spec states the new
description fragment is appended to the accumulated description
(concatenation-in-order), so the model concatenates the text values. -/
def appendMarkdownString (md1 md2 : Option String) : Option String :=
  some (md1.getD "" ++ md2.getD "")

/-- Modelled from the spec: the source guard `if (!progress.description)` tests
truthiness of the optional formatted text; per the spec an update "carries no
description content" when the description is empty or absent, and such a call
is a no-op. -/
def noDescriptionContent : Option String → Bool
  | none => true
  | some s => s == ""

/-- The `AideAgentPlanStepModel` constructor: assigns the next fresh id,
records the step's fixed index, takes the update's description as the initial
accumulated description, and seeds `_parts` with the initial update record.
`_isComplete` starts `false`. -/
def AideAgentPlanStepModel.create (nextId : Nat) (sessionId : String)
    (initialValue : IAideAgentPlanStep) : AideAgentPlanStepModel :=
  { id := "step_" ++ toString nextId
    sessionId := sessionId
    index := initialValue.index
    description := initialValue.description
    parts := [initialValue]
    isComplete := false }

/-- Method `AideAgentPlanStepModel.updateStep`: throws on index mismatch, returns
untouched (firing nothing) when the update carries no description content,
otherwise appends to the description, pushes the update record onto `_parts`,
and fires the step's `onDidChange`. -/
def AideAgentPlanStepModel.updateStep (s : AideAgentPlanStepModel)
    (progress : IAideAgentPlanStep) :
    Except PlanError (AideAgentPlanStepModel × List PlanEvent) :=
  if s.index ≠ progress.index then
    .error .indexMismatch
  else if noDescriptionContent progress.description then
    .ok (s, [])
  else
    .ok ({ s with
            description := appendMarkdownString s.description progress.description
            parts := s.parts ++ [progress] },
         [.stepDidChange s.id])

/-- State of `AideAgentPlanModel`: session id and the `_steps` array. The
class-static counter `nextId` used by the step constructor is threaded through
the plan state. -/
structure AideAgentPlanModel where
  sessionId : String
  steps : List AideAgentPlanStepModel
  nextId : Nat
  deriving Repr, DecidableEq

/-- Method `AideAgentPlanModel.getSteps`: `return this._steps;` — the internal step
array itself is returned, by reference, without copying. -/
def AideAgentPlanModel.getSteps (p : AideAgentPlanModel) :
    List AideAgentPlanStepModel := p.steps

/-- Method `AideAgentPlanModel.updateSteps`: if `this._steps[progress.index]` is
occupied the update is delegated to that step (the updated step replaces the
old one in place); otherwise a new step is constructed from the update,
pushed onto the end of the array, and an `addPlanStep` change event fires. -/
def AideAgentPlanModel.updateSteps (p : AideAgentPlanModel)
    (progress : IAideAgentPlanStep) :
    Except PlanError (AideAgentPlanModel × List PlanEvent) :=
  match p.steps[progress.index]? with
  | some s =>
    match s.updateStep progress with
    | .error e => .error e
    | .ok (s2, evts) => .ok ({ p with steps := p.steps.set progress.index s2 }, evts)
  | none =>
    let step := AideAgentPlanStepModel.create p.nextId p.sessionId progress
    .ok ({ p with steps := p.steps ++ [step], nextId := p.nextId + 1 },
         [.addPlanStep step])

/-- Method `AideAgentPlanModel.dispose`: disposes every owned step in order, then
fires the plan's `onDidDispose` once. Modelled from the spec: the per-step
disposal notification ("each step's own disposal notification fires") comes
from the `Disposable` base class in `base/common/lifecycle.ts`, which is not
part of the provided sources. -/
def AideAgentPlanModel.dispose (p : AideAgentPlanModel) : List PlanEvent :=
  p.steps.map (fun s => .stepDisposed s.id) ++ [.planDisposed]

/-- A freshly constructed plan for a session: no steps yet. -/
def emptyPlan (sessionId : String) : AideAgentPlanModel :=
  { sessionId := sessionId, steps := [], nextId := 0 }

/-- Delivers a sequence of update records to `updateSteps`, accumulating the
events fired; stops at the first thrown error. -/
def runUpdates (p : AideAgentPlanModel) :
    List IAideAgentPlanStep → Except PlanError (AideAgentPlanModel × List PlanEvent)
  | [] => .ok (p, [])
  | u :: us =>
    match p.updateSteps u with
    | .error e => .error e
    | .ok (p2, evts) =>
      match runUpdates p2 us with
      | .error e => .error e
      | .ok (p3, evts2) => .ok (p3, evts ++ evts2)

/-- Step count of a delivery outcome (`none` when an error was thrown). -/
def stepsLenOf : Except PlanError (AideAgentPlanModel × List PlanEvent) → Option Nat
  | .ok (p, _) => some p.steps.length
  | .error _ => none

/-- The step indices, in sequence order, of a delivery outcome. -/
def stepIndicesOf : Except PlanError (AideAgentPlanModel × List PlanEvent) →
    Option (List Nat)
  | .ok (p, _) => some (p.steps.map (fun s => s.index))
  | .error _ => none

/-- The observed step sequence of a delivery outcome. -/
def getStepsOf : Except PlanError (AideAgentPlanModel × List PlanEvent) →
    Option (List AideAgentPlanStepModel)
  | .ok (p, _) => some p.getSteps
  | .error _ => none

/-- All steps of a delivery outcome have `isComplete = false` (vacuously true
on error, where no state results). -/
def allStepsIncomplete : Except PlanError (AideAgentPlanModel × List PlanEvent) → Bool
  | .ok (p, _) => p.steps.all (fun s => s.isComplete == false)
  | .error _ => true

/-- Indices delivered "in increasing order": given `n` steps already exist,
each index addresses either the last existing step (`i + 1 = n`) or the next
fresh slot (`i = n`). `inOrderIdxFrom 0` captures a delivery in increasing
index order starting at 0. -/
def inOrderIdxFrom : Nat → List Nat → Bool
  | _, [] => true
  | n, i :: rest => (i == n || i + 1 == n) && inOrderIdxFrom (max n (i + 1)) rest

/-- The step count produced by a delivery, starting from `n` existing steps:
an index equal to the current count appends, any other index hits an existing
slot. -/
def finalCount : Nat → List Nat → Nat
  | n, [] => n
  | n, i :: rest => finalCount (if i == n then n + 1 else n) rest

/-- The indices of a delivery in the order first observed, skipping those in
`seen`. -/
def firstObservedAux : List Nat → List Nat → List Nat
  | _, [] => []
  | seen, i :: rest =>
    if i ∈ seen then firstObservedAux seen rest
    else i :: firstObservedAux (i :: seen) rest

/-- The distinct indices of a delivery, in the order first observed. -/
def firstObserved (idxs : List Nat) : List Nat := firstObservedAux [] idxs

/-- Recognizer for per-step disposal events. -/
def isStepDisposedEvent : PlanEvent → Bool
  | .stepDisposed _ => true
  | _ => false

/-- Recognizer for the plan-level disposal event. -/
def isPlanDisposedEvent : PlanEvent → Bool
  | .planDisposed => true
  | _ => false

/-- Claim C3: an update whose index differs from the step's own index makes
`updateStep` throw the index-mismatch error. The index guard is the first
statement of the method, so the error return carries no new state and no
events: the step's description, progress fragments, and completion flag are
untouched and no notification fires. -/
theorem claim_C3 (s : AideAgentPlanStepModel) (u : IAideAgentPlanStep)
    (h : s.index ≠ u.index) :
    s.updateStep u = .error PlanError.indexMismatch := by
  simp [AideAgentPlanStepModel.updateStep, h]

theorem claim_C3_witness :
    (AideAgentPlanStepModel.create 0 "s" ⟨0, none⟩).index ≠
      (⟨1, none⟩ : IAideAgentPlanStep).index ∧
    (AideAgentPlanStepModel.create 0 "s" ⟨0, none⟩).updateStep ⟨1, none⟩ =
      .error PlanError.indexMismatch :=
  ⟨by decide, claim_C3 _ _ (by decide)⟩

/-- Claim C6: an update addressed to the step's own index whose description is
empty or absent is a no-op: the step value is returned unchanged and no
notification event fires. -/
theorem claim_C6 (s : AideAgentPlanStepModel) (u : IAideAgentPlanStep)
    (hidx : s.index = u.index) (hdesc : noDescriptionContent u.description = true) :
    s.updateStep u = .ok (s, []) := by
  simp [AideAgentPlanStepModel.updateStep, hidx, hdesc]

theorem claim_C6_witness :
    (AideAgentPlanStepModel.create 0 "s" ⟨2, some "x"⟩).index =
      (⟨2, none⟩ : IAideAgentPlanStep).index ∧
    noDescriptionContent (⟨2, none⟩ : IAideAgentPlanStep).description = true ∧
    (AideAgentPlanStepModel.create 0 "s" ⟨2, some "x"⟩).updateStep ⟨2, none⟩ =
      .ok (AideAgentPlanStepModel.create 0 "s" ⟨2, some "x"⟩, []) :=
  ⟨rfl, rfl, claim_C6 _ _ rfl rfl⟩

/-- Claim C2: creating a step from an update with non-empty description `A` and
then applying an update with the same index and non-empty description `B`
accumulates the concatenation `A ++ B`, leaves the two update records as the
progress-fragment sequence (the second fragment being the second update
itself, so the sequence has length 2), and fires the step's change event. -/
theorem claim_C2 (sessionId : String) (nextId i : Nat) (A B : String)
    (hA : A ≠ "") (hB : B ≠ "") :
    (AideAgentPlanStepModel.create nextId sessionId ⟨i, some A⟩).updateStep ⟨i, some B⟩ =
      .ok ({ AideAgentPlanStepModel.create nextId sessionId ⟨i, some A⟩ with
               description := some (A ++ B)
               parts := [⟨i, some A⟩, ⟨i, some B⟩] },
           [PlanEvent.stepDidChange ("step_" ++ toString nextId)]) := by
  simp [AideAgentPlanStepModel.updateStep, AideAgentPlanStepModel.create,
    noDescriptionContent, appendMarkdownString, hB]

theorem claim_C2_witness :
    ("A" : String) ≠ "" ∧ ("B" : String) ≠ "" ∧
    (AideAgentPlanStepModel.create 0 "s" ⟨0, some "A"⟩).updateStep ⟨0, some "B"⟩ =
      .ok ({ AideAgentPlanStepModel.create 0 "s" ⟨0, some "A"⟩ with
               description := some ("A" ++ "B")
               parts := [⟨0, some "A"⟩, ⟨0, some "B"⟩] },
           [PlanEvent.stepDidChange ("step_" ++ toString 0)]) :=
  ⟨by decide, by decide, claim_C2 "s" 0 0 "A" "B" (by decide) (by decide)⟩

/-- Claim C10: when no step occupies the update's index, `updateSteps` creates
and appends a new step and fires `addPlanStep` even for an update whose
description is empty or absent: the emptiness guard lives in `updateStep` and
is only reached on the delegation path. The new step's progress-fragment
sequence is exactly the one update and its description is the update's
description. -/
theorem claim_C10 (p : AideAgentPlanModel) (u : IAideAgentPlanStep)
    (hslot : p.steps[u.index]? = none)
    (hdesc : noDescriptionContent u.description = true) :
    p.updateSteps u =
      .ok ({ p with
               steps := p.steps ++ [AideAgentPlanStepModel.create p.nextId p.sessionId u]
               nextId := p.nextId + 1 },
           [PlanEvent.addPlanStep (AideAgentPlanStepModel.create p.nextId p.sessionId u)]) ∧
    (AideAgentPlanStepModel.create p.nextId p.sessionId u).parts = [u] ∧
    (AideAgentPlanStepModel.create p.nextId p.sessionId u).description = u.description := by
  refine ⟨?_, rfl, rfl⟩
  simp [AideAgentPlanModel.updateSteps, hslot]

theorem claim_C10_witness :
    (emptyPlan "s").steps[(⟨0, none⟩ : IAideAgentPlanStep).index]? = none ∧
    noDescriptionContent (⟨0, none⟩ : IAideAgentPlanStep).description = true ∧
    ((emptyPlan "s").updateSteps ⟨0, none⟩ =
      .ok ({ emptyPlan "s" with
               steps := (emptyPlan "s").steps ++
                 [AideAgentPlanStepModel.create (emptyPlan "s").nextId
                   (emptyPlan "s").sessionId ⟨0, none⟩]
               nextId := (emptyPlan "s").nextId + 1 },
           [PlanEvent.addPlanStep (AideAgentPlanStepModel.create (emptyPlan "s").nextId
             (emptyPlan "s").sessionId ⟨0, none⟩)]) ∧
     (AideAgentPlanStepModel.create (emptyPlan "s").nextId
       (emptyPlan "s").sessionId ⟨0, none⟩).parts = [⟨0, none⟩] ∧
     (AideAgentPlanStepModel.create (emptyPlan "s").nextId
       (emptyPlan "s").sessionId ⟨0, none⟩).description =
         (⟨0, none⟩ : IAideAgentPlanStep).description) :=
  ⟨rfl, rfl, claim_C10 (emptyPlan "s") ⟨0, none⟩ rfl rfl⟩

/-- Claim C4: disposing a plan with `N` steps produces exactly `N` per-step
disposal events — one per owned step, in step order — followed by exactly one
plan-level disposal event. -/
theorem claim_C4 (p : AideAgentPlanModel) :
    p.dispose.countP isStepDisposedEvent = p.steps.length ∧
    p.dispose.countP isPlanDisposedEvent = 1 ∧
    p.dispose.take p.steps.length =
      p.steps.map (fun s => PlanEvent.stepDisposed s.id) ∧
    p.dispose.drop p.steps.length = [PlanEvent.planDisposed] := by
  have hlen : (p.steps.map (fun s => PlanEvent.stepDisposed s.id)).length =
      p.steps.length := List.length_map ..
  refine ⟨?_, ?_, ?_, ?_⟩
  · simp [AideAgentPlanModel.dispose, List.countP_append, List.countP_map,
      isStepDisposedEvent, List.countP_eq_length, Function.comp]
  · simp [AideAgentPlanModel.dispose, List.countP_append, List.countP_map,
      isPlanDisposedEvent, Function.comp]
  · rw [AideAgentPlanModel.dispose, ← hlen, List.take_left]
  · rw [AideAgentPlanModel.dispose, ← hlen, List.drop_left]

/-- Claim C5 counterexample: `getSteps` returns the internal `_steps` array by
reference (`return this._steps;`), and a later `updateSteps` call pushes onto
that same array. Observing through the returned reference after the update
(`stepsLenOf` of the updated plan) sees 1 step, while the sequence had 0 steps
at the time of the `getSteps` call — so the value obtained is not a
point-in-time snapshot. -/
theorem claim_C5_counterexample :
    (emptyPlan "s").getSteps.length = 0 ∧
    stepsLenOf ((emptyPlan "s").updateSteps ⟨0, none⟩) = some 1 ∧
    stepsLenOf ((emptyPlan "s").updateSteps ⟨0, none⟩) ≠
      some ((emptyPlan "s").getSteps.length) :=
  ⟨rfl, rfl, by decide⟩

/-- Claim C5 (amended): `getSteps` returns the live internal step sequence, in
index order, by reference; an `updateSteps` call performed after the
`getSteps()` call that appends a step changes the sequence observable through
the returned reference (it becomes the old sequence with the new step pushed,
which differs from the sequence at call time). -/
theorem claim_C5 (p : AideAgentPlanModel) (u : IAideAgentPlanStep)
    (hslot : p.steps[u.index]? = none) :
    getStepsOf (p.updateSteps u) =
      some (p.getSteps ++ [AideAgentPlanStepModel.create p.nextId p.sessionId u]) ∧
    p.getSteps ++ [AideAgentPlanStepModel.create p.nextId p.sessionId u] ≠
      p.getSteps := by
  constructor
  · simp [AideAgentPlanModel.updateSteps, hslot, getStepsOf, AideAgentPlanModel.getSteps]
  · intro h
    have h2 := congrArg List.length h
    simp [AideAgentPlanModel.getSteps] at h2

theorem claim_C5_witness :
    (emptyPlan "s").steps[(⟨0, some "d"⟩ : IAideAgentPlanStep).index]? = none ∧
    (getStepsOf ((emptyPlan "s").updateSteps ⟨0, some "d"⟩) =
      some ((emptyPlan "s").getSteps ++
        [AideAgentPlanStepModel.create (emptyPlan "s").nextId
          (emptyPlan "s").sessionId ⟨0, some "d"⟩]) ∧
     (emptyPlan "s").getSteps ++
        [AideAgentPlanStepModel.create (emptyPlan "s").nextId
          (emptyPlan "s").sessionId ⟨0, some "d"⟩] ≠ (emptyPlan "s").getSteps) :=
  ⟨rfl, claim_C5 (emptyPlan "s") ⟨0, some "d"⟩ rfl⟩

/-- A successful `updateStep` call never changes the step's completion flag. -/
theorem updateStep_isComplete (s : AideAgentPlanStepModel) (u : IAideAgentPlanStep)
    (s2 : AideAgentPlanStepModel) (evts : List PlanEvent)
    (h : s.updateStep u = .ok (s2, evts)) : s2.isComplete = s.isComplete := by
  unfold AideAgentPlanStepModel.updateStep at h
  split at h
  · simp at h
  · split at h <;>
      (simp only [Except.ok.injEq, Prod.mk.injEq] at h; rw [← h.1])

/-- A successful `updateStep` call never changes the step's fixed index. -/
theorem updateStep_index (s : AideAgentPlanStepModel) (u : IAideAgentPlanStep)
    (s2 : AideAgentPlanStepModel) (evts : List PlanEvent)
    (h : s.updateStep u = .ok (s2, evts)) : s2.index = s.index := by
  unfold AideAgentPlanStepModel.updateStep at h
  split at h
  · simp at h
  · split at h <;>
      (simp only [Except.ok.injEq, Prod.mk.injEq] at h; rw [← h.1])

/-- A successful `updateSteps` call preserves "every step is incomplete". -/
theorem updateSteps_incomplete (p : AideAgentPlanModel) (u : IAideAgentPlanStep)
    (p2 : AideAgentPlanModel) (evts : List PlanEvent)
    (h : p.updateSteps u = .ok (p2, evts))
    (hp : ∀ s ∈ p.steps, s.isComplete = false) :
    ∀ s ∈ p2.steps, s.isComplete = false := by
  unfold AideAgentPlanModel.updateSteps at h
  split at h
  case h_1 s0 hs0 =>
    split at h
    · simp at h
    case h_2 s2 evts2 heq =>
      simp only [Except.ok.injEq, Prod.mk.injEq] at h
      intro t ht
      rw [← h.1] at ht
      rcases List.mem_or_eq_of_mem_set ht with hmem | hteq
      · exact hp t hmem
      · rw [hteq, updateStep_isComplete s0 u s2 evts2 heq]
        exact hp s0 (List.getElem?_mem hs0)
  case h_2 =>
    simp only [Except.ok.injEq, Prod.mk.injEq] at h
    intro t ht
    rw [← h.1] at ht
    rcases List.mem_append.mp ht with hmem | hteq
    · exact hp t hmem
    · rw [List.mem_singleton.mp hteq]; rfl

/-- Claim C9: every reachable step state has `isComplete = false`: the flag is
initialized to `false` by the constructor and no operation of this component
ever assigns it. -/
theorem claim_C9 (sessionId : String) (us : List IAideAgentPlanStep) :
    allStepsIncomplete (runUpdates (emptyPlan sessionId) us) = true := by
  suffices h : ∀ p : AideAgentPlanModel, (∀ s ∈ p.steps, s.isComplete = false) →
      allStepsIncomplete (runUpdates p us) = true by
    exact h (emptyPlan sessionId) (by intro s hs; simp [emptyPlan] at hs)
  induction us with
  | nil =>
    intro p hp
    simpa [runUpdates, allStepsIncomplete, List.all_eq_true] using hp
  | cons u us ih =>
    intro p hp
    unfold runUpdates
    split
    · simp [allStepsIncomplete]
    next p2 evts hu =>
      split
      · simp [allStepsIncomplete]
      next p3 evts2 hr =>
        have h2 := ih p2 (updateSteps_incomplete p u p2 evts hu hp)
        rw [hr] at h2
        simpa [allStepsIncomplete] using h2

/-- Setting position `k` of `range n` to `k` changes nothing. -/
theorem range_set_self (n k : Nat) (h : k < n) :
    (List.range n).set k k = List.range n := by
  apply List.ext_getElem?
  intro i
  rw [List.getElem?_set]
  split
  next heq =>
    subst heq
    rw [List.length_range, if_pos h, List.getElem?_range h]
  next => rfl

/-- Calling `updateStep` succeeds (never throws) when the update carries the step's
own index. -/
theorem updateStep_ok_of_index_eq (s : AideAgentPlanStepModel)
    (u : IAideAgentPlanStep) (h : s.index = u.index) :
    ∃ s2 evts, s.updateStep u = .ok (s2, evts) := by
  by_cases hd : noDescriptionContent u.description = true
  · exact ⟨s, [], by simp [AideAgentPlanStepModel.updateStep, h, hd]⟩
  · refine ⟨{ s with
        description := appendMarkdownString s.description u.description
        parts := s.parts ++ [u] }, [.stepDidChange s.id], ?_⟩
    simp [AideAgentPlanStepModel.updateStep, h, hd]

/-- Invariant of contiguous delivery: starting from a plan whose steps sit at
their own indices (`map index = range length`), a delivery whose indices stay
"in order" (each addresses the last existing slot or the next fresh one)
succeeds, keeps the steps at their own indices, and ends with `finalCount`
many steps. -/
theorem runUpdates_contig (us : List IAideAgentPlanStep) :
    ∀ p : AideAgentPlanModel,
      p.steps.map (fun s => s.index) = List.range p.steps.length →
      inOrderIdxFrom p.steps.length (us.map (fun u => u.index)) = true →
      ∃ p2 evts, runUpdates p us = .ok (p2, evts) ∧
        p2.steps.map (fun s => s.index) = List.range p2.steps.length ∧
        p2.steps.length = finalCount p.steps.length (us.map (fun u => u.index)) := by
  induction us with
  | nil => exact fun p hmap _ => ⟨p, [], rfl, hmap, rfl⟩
  | cons u us ih =>
    intro p hmap hord
    simp only [List.map_cons, inOrderIdxFrom, Bool.and_eq_true, Bool.or_eq_true,
      beq_iff_eq] at hord
    obtain ⟨hcase, hrest⟩ := hord
    rcases hcase with hnew | hold
    · -- fresh slot: u.index equals the current step count, a step is appended
      have hslot : p.steps[u.index]? = none := List.getElem?_eq_none (by omega)
      have hstep : p.updateSteps u =
          .ok ({ p with
                   steps := p.steps ++
                     [AideAgentPlanStepModel.create p.nextId p.sessionId u]
                   nextId := p.nextId + 1 },
               [.addPlanStep (AideAgentPlanStepModel.create p.nextId p.sessionId u)]) := by
        simp [AideAgentPlanModel.updateSteps, hslot]
      set p1 : AideAgentPlanModel :=
        { p with
            steps := p.steps ++ [AideAgentPlanStepModel.create p.nextId p.sessionId u]
            nextId := p.nextId + 1 } with hp1
      have hlen1 : p1.steps.length = p.steps.length + 1 := by
        simp [hp1]
      have hmap1 : p1.steps.map (fun s => s.index) = List.range p1.steps.length := by
        simp only [hp1, List.map_append, List.map_cons, List.map_nil, hmap]
        rw [hlen1, List.range_succ]
        simp [AideAgentPlanStepModel.create, hnew]
      have hordrest :
          inOrderIdxFrom p1.steps.length (us.map (fun v => v.index)) = true := by
        rw [hlen1, show p.steps.length + 1 = max p.steps.length (u.index + 1) by omega]
        exact hrest
      obtain ⟨p2, evts2, hrun, hmap2, hlen2⟩ := ih p1 hmap1 hordrest
      refine ⟨p2,
        [.addPlanStep (AideAgentPlanStepModel.create p.nextId p.sessionId u)] ++ evts2,
        ?_, hmap2, ?_⟩
      · simp [runUpdates, hstep, hrun]
      · rw [hlen2, hlen1]
        have hc : (u.index == p.steps.length) = true := by simp [hnew]
        simp [finalCount, hc]
    · -- existing slot: u.index addresses the last step, which absorbs the update
      have hlt : u.index < p.steps.length := by omega
      have hsome : (p.steps.map (fun s => s.index))[u.index]? = some u.index := by
        rw [hmap]; exact List.getElem?_range hlt
      rw [List.getElem?_map] at hsome
      obtain ⟨s0, hs0, hs0idx⟩ := Option.map_eq_some'.mp hsome
      obtain ⟨s2, evts0, hstep0⟩ := updateStep_ok_of_index_eq s0 u hs0idx
      have hidx2 : s2.index = s0.index := updateStep_index s0 u s2 evts0 hstep0
      have hstep : p.updateSteps u =
          .ok ({ p with steps := p.steps.set u.index s2 }, evts0) := by
        simp [AideAgentPlanModel.updateSteps, hs0, hstep0]
      set p1 : AideAgentPlanModel := { p with steps := p.steps.set u.index s2 } with hp1
      have hlen1 : p1.steps.length = p.steps.length := by simp [hp1]
      have hmap1 : p1.steps.map (fun s => s.index) = List.range p1.steps.length := by
        simp only [hp1, List.map_set, hmap]
        rw [hlen1, hidx2, hs0idx, range_set_self _ _ hlt]
      have hordrest :
          inOrderIdxFrom p1.steps.length (us.map (fun v => v.index)) = true := by
        rw [hlen1, show p.steps.length = max p.steps.length (u.index + 1) by omega]
        exact hrest
      obtain ⟨p2, evts2, hrun, hmap2, hlen2⟩ := ih p1 hmap1 hordrest
      refine ⟨p2, evts0 ++ evts2, ?_, hmap2, ?_⟩
      · simp [runUpdates, hstep, hrun]
      · rw [hlen2, hlen1]
        have hc : (u.index == p.steps.length) = false := by
          simp only [beq_eq_false_iff_ne, ne_eq]; omega
        simp [finalCount, hc]

/-- Under in-order delivery the produced index set is an initial segment:
`finalCount` counts exactly the fresh indices, in first-observed order. -/
theorem range_finalCount (idxs : List Nat) :
    ∀ (n : Nat) (seen : List Nat), (∀ x, x ∈ seen ↔ x < n) →
      inOrderIdxFrom n idxs = true →
      List.range (finalCount n idxs) =
        List.range n ++ firstObservedAux seen idxs := by
  induction idxs with
  | nil => intro n seen _ _; simp [finalCount, firstObservedAux]
  | cons i rest ih =>
    intro n seen hseen hord
    simp only [inOrderIdxFrom, Bool.and_eq_true, Bool.or_eq_true, beq_iff_eq] at hord
    obtain ⟨hcase, hrest⟩ := hord
    rcases hcase with hnew | hold
    · have hnot : i ∉ seen := by rw [hseen]; omega
      rw [finalCount, if_pos (by simp [hnew])]
      rw [firstObservedAux, if_neg hnot]
      have hseen2 : ∀ x, x ∈ i :: seen ↔ x < n + 1 := by
        intro x; simp only [List.mem_cons, hseen, hnew]; omega
      have hih := ih (n + 1) (i :: seen) hseen2
        (by rw [show max n (i + 1) = n + 1 by omega] at hrest; exact hrest)
      rw [hih, List.range_succ, hnew]
      simp
    · have hmem : i ∈ seen := by rw [hseen]; omega
      rw [finalCount, if_neg (by simp only [beq_iff_eq]; omega)]
      rw [firstObservedAux, if_pos hmem]
      exact ih n seen hseen
        (by rw [show max n (i + 1) = n by omega] at hrest; exact hrest)

/-- Membership in `firstObservedAux`: observed in the delivery and not yet
seen. -/
theorem mem_firstObservedAux (idxs : List Nat) :
    ∀ (seen : List Nat) (x : Nat),
      x ∈ firstObservedAux seen idxs ↔ x ∈ idxs ∧ x ∉ seen := by
  induction idxs with
  | nil => simp [firstObservedAux]
  | cons i rest ih =>
    intro seen x
    by_cases hmem : i ∈ seen
    · rw [firstObservedAux, if_pos hmem, ih]
      simp only [List.mem_cons]
      constructor
      · rintro ⟨hx, hns⟩; exact ⟨Or.inr hx, hns⟩
      · rintro ⟨hx | hx, hns⟩
        · subst hx; exact absurd hmem hns
        · exact ⟨hx, hns⟩
    · rw [firstObservedAux, if_neg hmem]
      simp only [List.mem_cons, ih]
      constructor
      · rintro (hx | ⟨hx, hns⟩)
        · subst hx; exact ⟨Or.inl rfl, hmem⟩
        · simp only [List.mem_cons, not_or] at hns
          exact ⟨Or.inr hx, hns.2⟩
      · rintro ⟨hx | hx, hns⟩
        · exact Or.inl hx
        · by_cases hxi : x = i
          · exact Or.inl hxi
          · exact Or.inr ⟨hx, by simp [hxi, hns]⟩

/-- The first-observed index list has no duplicates. -/
theorem nodup_firstObservedAux (idxs : List Nat) :
    ∀ seen : List Nat, (firstObservedAux seen idxs).Nodup := by
  induction idxs with
  | nil => intro seen; simp [firstObservedAux]
  | cons i rest ih =>
    intro seen
    by_cases hmem : i ∈ seen
    · rw [firstObservedAux, if_pos hmem]; exact ih seen
    · rw [firstObservedAux, if_neg hmem]
      refine List.nodup_cons.mpr ⟨?_, ih (i :: seen)⟩
      rw [mem_firstObservedAux]
      rintro ⟨_, hns⟩
      exact hns (List.mem_cons_self i seen)

/-- The first-observed index list is a permutation of the deduplicated
delivery, so in particular both count the distinct indices. -/
theorem firstObserved_perm_dedup (idxs : List Nat) :
    List.Perm (firstObserved idxs) idxs.dedup := by
  refine (List.perm_ext_iff_of_nodup (nodup_firstObservedAux idxs []) idxs.nodup_dedup).mpr ?_
  intro x
  rw [List.mem_dedup, mem_firstObservedAux]
  simp

/-- For an in-order delivery starting at 0, the produced step count is the
number of distinct indices observed. -/
theorem finalCount_eq_dedup_length (idxs : List Nat)
    (h : inOrderIdxFrom 0 idxs = true) :
    finalCount 0 idxs = idxs.dedup.length := by
  have h1 := range_finalCount idxs 0 [] (by simp) h
  have h2 := congrArg List.length h1
  simp only [List.length_range, List.range_zero, List.nil_append] at h2
  rw [h2]
  exact (firstObserved_perm_dedup idxs).length_eq

/-- Claim C1: across any update sequence delivered in increasing index order
starting at 0 (each update's index repeats the last index or moves to the next
one), delivery succeeds and the resulting plan's step count equals the number
of distinct indices observed in the sequence. -/
theorem claim_C1 (sessionId : String) (us : List IAideAgentPlanStep)
    (h : inOrderIdxFrom 0 (us.map (fun u => u.index)) = true) :
    stepsLenOf (runUpdates (emptyPlan sessionId) us) =
      some ((us.map (fun u => u.index)).dedup.length) := by
  obtain ⟨p2, evts, hrun, hmap, hlen⟩ :=
    runUpdates_contig us (emptyPlan sessionId) rfl h
  rw [hrun]
  simp only [stepsLenOf]
  rw [hlen]
  rw [show (emptyPlan sessionId).steps.length = 0 from rfl]
  rw [finalCount_eq_dedup_length _ h]

theorem claim_C1_witness :
    inOrderIdxFrom 0
      (([⟨0, some "a"⟩, ⟨0, some "b"⟩, ⟨1, some "c"⟩] :
        List IAideAgentPlanStep).map (fun u => u.index)) = true ∧
    stepsLenOf (runUpdates (emptyPlan "s")
        [⟨0, some "a"⟩, ⟨0, some "b"⟩, ⟨1, some "c"⟩]) =
      some ((([⟨0, some "a"⟩, ⟨0, some "b"⟩, ⟨1, some "c"⟩] :
        List IAideAgentPlanStep).map (fun u => u.index)).dedup.length) :=
  ⟨by decide, claim_C1 "s" [⟨0, some "a"⟩, ⟨0, some "b"⟩, ⟨1, some "c"⟩] (by decide)⟩

/-- Claim C7 counterexample: the claim quantifies over every reachable plan
state, but delivering the indices `[1, 1]` (both updates succeed: each time
slot 1 of the array is empty, so a step is pushed) yields two steps both
carrying index 1, while index 1 was first observed only once — the second
append did not come from a newly observed index, so the step sequence
`[1, 1]` is not the first-observed order `[1]`. -/
theorem claim_C7_counterexample :
    stepIndicesOf (runUpdates (emptyPlan "s") [⟨1, none⟩, ⟨1, none⟩]) =
      some [1, 1] ∧
    firstObserved (([⟨1, none⟩, ⟨1, none⟩] :
      List IAideAgentPlanStep).map (fun u => u.index)) = [1] ∧
    ([1, 1] : List Nat) ≠ [1] :=
  ⟨rfl, rfl, by decide⟩

/-- Claim C7 (amended): restricted to update sequences delivered in increasing
index order starting at 0, the invariant holds: delivery succeeds and the
steps' indices, in sequence order, are exactly the distinct observed indices
in the order they were first observed (each newly observed index appends its
step at the end; no operation reorders or removes steps). -/
theorem claim_C7 (sessionId : String) (us : List IAideAgentPlanStep)
    (h : inOrderIdxFrom 0 (us.map (fun u => u.index)) = true) :
    stepIndicesOf (runUpdates (emptyPlan sessionId) us) =
      some (firstObserved (us.map (fun u => u.index))) := by
  obtain ⟨p2, evts, hrun, hmap, hlen⟩ :=
    runUpdates_contig us (emptyPlan sessionId) rfl h
  rw [hrun]
  simp only [stepIndicesOf]
  rw [hmap, hlen]
  rw [show (emptyPlan sessionId).steps.length = 0 from rfl]
  have h1 := range_finalCount (us.map (fun u => u.index)) 0 [] (by simp) h
  rw [h1]
  simp [firstObserved]

theorem claim_C7_witness :
    inOrderIdxFrom 0
      (([⟨0, some "a"⟩, ⟨1, some "b"⟩, ⟨1, some "c"⟩] :
        List IAideAgentPlanStep).map (fun u => u.index)) = true ∧
    stepIndicesOf (runUpdates (emptyPlan "s")
        [⟨0, some "a"⟩, ⟨1, some "b"⟩, ⟨1, some "c"⟩]) =
      some (firstObserved (([⟨0, some "a"⟩, ⟨1, some "b"⟩, ⟨1, some "c"⟩] :
        List IAideAgentPlanStep).map (fun u => u.index))) :=
  ⟨by decide, claim_C7 "s" [⟨0, some "a"⟩, ⟨1, some "b"⟩, ⟨1, some "c"⟩] (by decide)⟩

/-- A code span of the backend's hybrid-search response, as consumed by
`SideCarClient.getSemanticSearchResult` (fields as read in `client.ts`; the
interface itself lives with the sidecar types, outside the provided sources).
The nullable relevance score, an IEEE double in the source, is modelled as a
rational number, which preserves every sign comparison the comparator makes. -/
structure CodeSpan where
  file_path : String
  start_line : Nat
  end_line : Nat
  data : String
  score : Option ℚ
  deriving Repr, DecidableEq

/-- The comparator literal passed to `codeSymbols.sort((a, b) => ...)`:
`b.score - a.score` when both scores are non-null, `1` when only `a`'s score
is null, `-1` when only `b`'s is null, `0` when both are null. -/
def codeSpanComparator (a b : CodeSpan) : ℚ :=
  match a.score, b.score with
  | some sa, some sb => sb - sa
  | none, some _ => 1
  | some _, none => -1
  | none, none => 0

/-- The non-strict order induced by the comparator: `a` may precede `b` when
the comparator does not require `a` after `b`. -/
def spanLE (a b : CodeSpan) : Bool := decide (codeSpanComparator a b ≤ 0)

/-- Model of `Array.prototype.sort` with the score comparator. ECMAScript specifies the
result as a stable, comparator-consistent sort (the comparator here is a
consistent total preorder), modelled by a stable merge sort under `spanLE`. -/
def sortedCodeSymbols (code_spans : List CodeSpan) : List CodeSpan :=
  code_spans.mergeSort spanLE

/-- The ordering the sorted output must exhibit: non-null scores in
non-increasing order, and no null-scored entry before a non-null-scored one. -/
def scoreOrder (a b : CodeSpan) : Prop :=
  match a.score, b.score with
  | some sa, some sb => sb ≤ sa
  | some _, none => True
  | none, some _ => False
  | none, none => True

/-- The comparator order is transitive. -/
theorem spanLE_trans (a b c : CodeSpan) :
    spanLE a b → spanLE b c → spanLE a c := by
  cases ha : a.score <;> cases hb : b.score <;> cases hc : c.score <;>
    simp only [spanLE, codeSpanComparator, ha, hb, hc, decide_eq_true_eq] <;>
    intro h1 h2 <;> linarith

/-- The comparator order is total. -/
theorem spanLE_total (a b : CodeSpan) : spanLE a b || spanLE b a := by
  cases ha : a.score with
  | none =>
    cases hb : b.score <;>
      simp [spanLE, codeSpanComparator, ha, hb]
  | some sa =>
    cases hb : b.score with
    | none => simp [spanLE, codeSpanComparator, ha, hb]
    | some sb =>
      simp only [spanLE, codeSpanComparator, ha, hb, Bool.or_eq_true, decide_eq_true_eq]
      rcases le_total sa sb with h | h
      · right; linarith
      · left; linarith

/-- The comparator order refines the claimed score ordering. -/
theorem spanLE_imp_scoreOrder (a b : CodeSpan) :
    spanLE a b = true → scoreOrder a b := by
  cases ha : a.score <;> cases hb : b.score <;>
    simp only [spanLE, codeSpanComparator, scoreOrder, ha, hb, decide_eq_true_eq] <;>
    intro h <;> first
    | trivial
    | linarith

/-- Claim C8: the sorted span list is a permutation of the backend's list;
it is ordered with entries carrying non-null scores first, in non-increasing
score order, and all null-scored entries after them; and the sort is stable:
for every score value, the entries carrying exactly that score (the entries
that compare equal under the comparator) appear in their original relative
order, i.e. filtering the output by that score equals filtering the input. -/
theorem claim_C8 (l : List CodeSpan) :
    List.Perm (sortedCodeSymbols l) l ∧
    List.Pairwise scoreOrder (sortedCodeSymbols l) ∧
    ∀ k : Option ℚ,
      (sortedCodeSymbols l).filter (fun s => s.score == k) =
        l.filter (fun s => s.score == k) := by
  refine ⟨List.mergeSort_perm l spanLE, ?_, ?_⟩
  · exact (List.sorted_mergeSort spanLE_trans spanLE_total l).imp
      (fun hab => spanLE_imp_scoreOrder _ _ hab)
  · intro k
    have hall : ∀ s ∈ l.filter (fun s => s.score == k), s.score = k := by
      intro s hs
      have := (List.mem_filter.mp hs).2
      simpa using this
    have hpw : (l.filter (fun s => s.score == k)).Pairwise
        (fun a b => spanLE a b = true) := by
      apply List.pairwise_of_forall_mem_list
      intro a ha b hb
      have hak := hall a ha
      have hbk := hall b hb
      cases k with
      | none => simp [spanLE, codeSpanComparator, hak, hbk]
      | some q => simp [spanLE, codeSpanComparator, hak, hbk, sub_self]
    have hsub : (l.filter (fun s => s.score == k)).Sublist (sortedCodeSymbols l) :=
      List.sublist_mergeSort spanLE_trans spanLE_total hpw (List.filter_sublist l)
    have hsub2 : (l.filter (fun s => s.score == k)).Sublist
        ((sortedCodeSymbols l).filter (fun s => s.score == k)) := by
      have h1 := hsub.filter (fun s => s.score == k)
      rwa [List.filter_filter, show
        (fun s => (s.score == k) && (s.score == k)) = (fun s : CodeSpan => s.score == k)
        from funext (fun s => Bool.and_self _)] at h1
    have hlen : ((sortedCodeSymbols l).filter (fun s => s.score == k)).length =
        (l.filter (fun s => s.score == k)).length :=
      ((List.mergeSort_perm l spanLE).filter (fun s => s.score == k)).length_eq
    exact (hsub2.eq_of_length hlen.symm).symm
